import Mathlib

/-!
Shallow embedding of the `proprdbrt` runtime library (src/rt/runtime.go) of
the `proprdb` repository, and proofs about it.

Modelling conventions:
- SQLite tables backing the runtime are modelled as explicit functional or
  list state.  `_sync` is a finite map keyed by (object_id, table_name,
  remote); `_deleted` a finite map keyed by (table_name, id); the live
  per-type table a finite map keyed by id; `_unknown_types` a list of rows
  carrying their SQLite rowid.
- The `DBTX` handle may be nil in Go; functions that guard against a nil
  handle take an `Option` of their state and return `Except String`.
- Errors returned by Go functions are modelled as `Except String` /
  `Option String` carrying the format string with its arguments spliced in;
  opaque sub-errors (SQL failures) are outside the error-free model except
  where the source generates them itself.
- Go `int64` timestamps are `Int`; byte values are `Nat` with explicit
  `% 256`-style bounds.
-/

namespace ProprDB

/-- The `_sync` table: `(object_id, table_name, remote) → at_ns`, with the
primary-key uniqueness of the SQL schema baked in as a finite map. -/
abbrev SyncDB : Type := String → String → String → Option Int

/-- The `_deleted` tombstone table: `(table_name, id) → at_ns`. -/
abbrev DeletedDB : Type := String → String → Option Int

/-- A live per-type table projected to what the runtime reads:
`(table_name, id) → at_ns` of the live row. -/
abbrev LiveDB : Type := String → String → Option Int

/-- `SyncUpsert` (runtime.go): on empty remote, no-op; otherwise SQL
`INSERT ... ON CONFLICT(object_id, table_name, remote) DO UPDATE SET
at_ns = CASE WHEN excluded.at_ns > at_ns THEN excluded.at_ns ELSE at_ns END`,
i.e. insert `atNs` when absent, else keep the larger value. -/
def SyncUpsert (q : SyncDB) (objectID tableName remote : String) (atNs : Int) :
    SyncDB :=
  if remote = "" then q
  else fun o t r =>
    if o = objectID ∧ t = tableName ∧ r = remote then
      match q objectID tableName remote with
      | none => some atNs
      | some old => some (if atNs > old then atNs else old)
    else q o t r

/-- `SyncNeedsSend` (runtime.go): empty remote returns true before any
query; otherwise true iff the `_sync` row is absent (`sql.ErrNoRows`) or its
`at_ns` is strictly below the passed `atNs`. -/
def SyncNeedsSend (q : SyncDB) (objectID tableName remote : String)
    (atNs : Int) : Bool :=
  if remote = "" then true
  else
    match q objectID tableName remote with
    | none => true
    | some syncedAtNs => syncedAtNs < atNs

/-- A point read of the live row's `at_ns`, paired with the number of
point reads it performs (one). -/
def livePointRead (live : LiveDB) (tableName objectID : String) :
    Option Int × Nat :=
  (live tableName objectID, 1)

/-- A point read of the tombstone's `at_ns`, paired with the number of
point reads it performs (one). -/
def tombstonePointRead (dead : DeletedDB) (tableName objectID : String) :
    Option Int × Nat :=
  (dead tableName objectID, 1)

/-- `LocalMaxAtNs` (runtime.go): start from `-1`, raise by the live row's
`at_ns` when a live row exists, raise by the tombstone's `at_ns` when a
tombstone exists; also returns the total count of point reads performed. -/
def LocalMaxAtNs (live : LiveDB) (dead : DeletedDB)
    (tableName objectID : String) : Int × Nat :=
  let (liveRes, liveReads) := livePointRead live tableName objectID
  let (tombRes, tombReads) := tombstonePointRead dead tableName objectID
  let maxAtNs : Int := -1
  let maxAtNs : Int :=
    match liveRes with
    | some rowAtNs => if rowAtNs > maxAtNs then rowAtNs else maxAtNs
    | none => maxAtNs
  let maxAtNs : Int :=
    match tombRes with
    | some tombstoneAtNs =>
        if tombstoneAtNs > maxAtNs then tombstoneAtNs else maxAtNs
    | none => maxAtNs
  (maxAtNs, liveReads + tombReads)

/-- Table-name constant from runtime.go. -/
def CoreTableDeletedName : String := "_deleted"

/-- Table-name constant from runtime.go. -/
def CoreTableSyncName : String := "_sync"

/-- Table-name constant from runtime.go. -/
def CoreTableSchemaStateName : String := "_proprdb_schema"

/-- Table-name constant from runtime.go. -/
def CoreTableUnknownName : String := "_unknown_types"

/-- The wire record of the JSONL interchange (`JSONLRecord` in runtime.go);
`data` is the raw JSON payload as text. -/
structure JSONLRecord where
  id : String
  deleted : Bool
  atNs : Int
  data : String
deriving DecidableEq, Repr

/-- One `_unknown_types` row, together with its SQLite rowid.  `deleted` is
the INTEGER column the source stores (`0`/`1`). -/
structure URow where
  rowid : Nat
  typeName : String
  id : String
  atNs : Int
  deleted : Int
  dataJson : String
deriving DecidableEq, Repr

/-- The `_unknown_types` table as the list of its rows. -/
abbrev UnknownTable : Type := List URow

/-- Go's `unicode.IsSpace` restricted to the Latin-1 range, which is what
`strings.TrimSpace` consults for these characters. -/
def goIsSpace (c : Char) : Bool :=
  c = ' ' ∨ c = '\t' ∨ c = '\n' ∨ c = Char.ofNat 11 ∨ c = Char.ofNat 12 ∨
    c = '\r' ∨ c = Char.ofNat 0x85 ∨ c = Char.ofNat 0xA0

/-- Go's `strings.HasPrefix` as a character-list prefix test. -/
def goHasPrefix (p s : String) : Bool :=
  p.toList.isPrefixOf s.toList

/-- Go's `strings.TrimSpace`: drop leading and trailing whitespace. -/
def goTrimSpace (s : String) : String :=
  String.mk (((s.toList.dropWhile goIsSpace).reverse.dropWhile
    goIsSpace).reverse)

/-- The rows of an `_unknown_types` state with a given `(type_name, id)`
key. -/
def rowsForKey (db : UnknownTable) (tn id : String) : List URow :=
  db.filter (fun r => r.typeName = tn ∧ r.id = id)

/-- Maximum of a list, `none` on the empty list (the SQL `MAX`
aggregate). -/
def omax {α : Type} [LinearOrder α] : List α → Option α
  | [] => none
  | x :: xs =>
    match omax xs with
    | none => some x
    | some m => some (max x m)

/-- The SQL `MAX(at_ns) ... GROUP BY type_name, id` aggregate for one
group. -/
def maxAtNsForKey (db : UnknownTable) (tn id : String) : Option Int :=
  omax ((rowsForKey db tn id).map URow.atNs)

/-- The `MAX(kept.rowid)` of the compaction subquery for one group: the
largest rowid among the group's rows whose `at_ns` attains the group
maximum. -/
def keptRowidForKey (db : UnknownTable) (tn id : String) : Option Nat :=
  omax (((rowsForKey db tn id).filter
    (fun r => some r.atNs = maxAtNsForKey db tn id)).map URow.rowid)

/-- The `(type_name, id)` groups present in the table. -/
def groupKeys (db : UnknownTable) : List (String × String) :=
  (db.map (fun r => (r.typeName, r.id))).dedup

/-- The full result set of the compaction subquery: one kept rowid per
group. -/
def keptRowids (db : UnknownTable) : List Nat :=
  (groupKeys db).filterMap (fun g => keptRowidForKey db g.1 g.2)

/-- The effect of the `DELETE FROM _unknown_types WHERE rowid NOT IN
(...)` statement of `CompactUnknownLatest`. -/
def compactUnknown (db : UnknownTable) : UnknownTable :=
  db.filter (fun r => r.rowid ∈ keptRowids db)

/-- `CompactUnknownLatest` (runtime.go): nil-handle guard, then the
compaction delete. -/
def CompactUnknownLatest (q : Option UnknownTable) :
    Except String UnknownTable :=
  match q with
  | none => .error "nil DBTX"
  | some db => .ok (compactUnknown db)

/-- The rowid SQLite assigns to a fresh `_unknown_types` insert
(one above the current maximum). -/
def nextRowid (db : UnknownTable) : Nat :=
  match omax (db.map URow.rowid) with
  | none => 1
  | some m => m + 1

/-- `UnknownInsert` (runtime.go): nil-handle and empty-type-name guards,
then a plain `INSERT` that fails on a `(type_name, id, at_ns)`
primary-key conflict. -/
def UnknownInsert (q : Option UnknownTable) (typeName : String)
    (record : JSONLRecord) : Except String UnknownTable :=
  match q with
  | none => .error "nil DBTX"
  | some db =>
    if goTrimSpace typeName = "" then .error "empty type name"
    else
      let deletedInt : Int := if record.deleted then 1 else 0
      if db.any (fun r =>
          r.typeName = typeName ∧ r.id = record.id ∧ r.atNs = record.atNs)
      then
        .error ("insert unknown row for " ++ typeName ++ "/" ++ record.id ++
          "/" ++ toString record.atNs ++ ": UNIQUE constraint failed")
      else
        .ok (db ++ [{ rowid := nextRowid db, typeName := typeName,
                      id := record.id, atNs := record.atNs,
                      deleted := deletedInt, dataJson := record.data }])

/-- The record `ReplayUnknownByType` rebuilds from a scanned row. -/
def rowToRecord (row : URow) : JSONLRecord :=
  { id := row.id, deleted := row.deleted ≠ 0, atNs := row.atNs,
    data := row.dataJson }

/-- The `ORDER BY at_ns ASC, id ASC, rowid ASC` comparison of the replay
query. -/
def rowLE (a b : URow) : Prop :=
  a.atNs < b.atNs ∨ (a.atNs = b.atNs ∧
    (a.id < b.id ∨ (a.id = b.id ∧ a.rowid ≤ b.rowid)))

instance : DecidableRel rowLE := fun a b => by
  unfold rowLE; infer_instance

instance : IsTotal URow rowLE := by
  constructor
  intro a b
  unfold rowLE
  rcases lt_trichotomy a.atNs b.atNs with h | h | h
  · exact Or.inl (Or.inl h)
  · rcases lt_trichotomy a.id b.id with h' | h' | h'
    · exact Or.inl (Or.inr ⟨h, Or.inl h'⟩)
    · rcases Nat.le_total a.rowid b.rowid with h'' | h''
      · exact Or.inl (Or.inr ⟨h, Or.inr ⟨h', h''⟩⟩)
      · exact Or.inr (Or.inr ⟨h.symm, Or.inr ⟨h'.symm, h''⟩⟩)
    · exact Or.inr (Or.inr ⟨h.symm, Or.inl h'⟩)
  · exact Or.inr (Or.inl h)

instance : IsTrans URow rowLE := by
  constructor
  intro a b c hab hbc
  unfold rowLE at *
  rcases hab with h1 | ⟨e1, h1⟩
  · rcases hbc with h2 | ⟨e2, _⟩
    · exact Or.inl (h1.trans h2)
    · exact Or.inl (e2 ▸ h1)
  · rcases hbc with h2 | ⟨e2, h2⟩
    · exact Or.inl (e1 ▸ h2)
    · refine Or.inr ⟨e1.trans e2, ?_⟩
      rcases h1 with h1 | ⟨f1, h1⟩
      · rcases h2 with h2 | ⟨f2, _⟩
        · exact Or.inl (h1.trans h2)
        · exact Or.inl (f2 ▸ h1)
      · rcases h2 with h2 | ⟨f2, h2⟩
        · exact Or.inl (f1 ▸ h2)
        · exact Or.inr ⟨f1.trans f2, h1.trans h2⟩

/-- The replay `SELECT ... WHERE type_name = ? ORDER BY at_ns ASC, id ASC,
rowid ASC` over a table state. -/
def selectUnknownByType (db : UnknownTable) (tn : String) : List URow :=
  List.insertionSort rowLE (db.filter (fun r => r.typeName = tn))

/-- The apply-and-delete loop of `ReplayUnknownByType` over the
pre-collected rows: returns the final table state, the records passed to
`apply` in order, and the (wrapped) first `apply` error if any. -/
def replayLoop (tn : String) (apply : JSONLRecord → Option String) :
    UnknownTable → List URow →
      UnknownTable × List JSONLRecord × Option String
  | db, [] => (db, [], none)
  | db, row :: rest =>
    match apply (rowToRecord row) with
    | some e =>
      (db, [rowToRecord row],
        some ("apply unknown row for " ++ tn ++ "/" ++ row.id ++ ": " ++ e))
    | none =>
      let db' := db.filter (fun r => ¬(r.typeName = tn ∧ r.id = row.id))
      let res := replayLoop tn apply db' rest
      (res.1, rowToRecord row :: res.2.1, res.2.2)

/-- `ReplayUnknownByType` (runtime.go): nil-handle and empty-type-name
guards, compaction, row collection, then the apply-and-delete loop.  The
`ok` payload is the final `_unknown_types` state, the trace of records
passed to `apply`, and the wrapped first `apply` error when one
occurred. -/
def ReplayUnknownByType (q : Option UnknownTable) (typeName : String)
    (apply : JSONLRecord → Option String) :
    Except String (UnknownTable × List JSONLRecord × Option String) :=
  match q with
  | none => .error "nil DBTX"
  | some db =>
    if goTrimSpace typeName = "" then .error "empty type name"
    else
      match CompactUnknownLatest (some db) with
      | .error e => .error e
      | .ok db1 => .ok (replayLoop typeName apply db1
          (selectUnknownByType db1 typeName))

/-- The JSONL input stream as the sequence of outcomes of successive
`json.Decoder.Decode` calls: a decoded record, or the text of the decode
error of a malformed record; the end of the list is clean `io.EOF`. -/
abbrev JSONLStream : Type := List (Sum String JSONLRecord)

/-- The decode loop of `ReadJSONL` (runtime.go), carrying the running line
number: returns the `(record, lineNumber)` pairs passed to `visit` in
order, and the terminating error if any (a line-numbered wrap of a decode
failure, or a `visit` error returned unchanged). -/
def readJSONLLoop (visit : JSONLRecord → Nat → Option String) :
    Nat → JSONLStream → List (JSONLRecord × Nat) × Option String
  | _, [] => ([], none)
  | lineNumber, .inl decodeErr :: _ =>
    ([], some ("decode jsonl line " ++ toString lineNumber ++ ": " ++
      decodeErr))
  | lineNumber, .inr record :: rest =>
    match visit record lineNumber with
    | some e => ([(record, lineNumber)], some e)
    | none =>
      let res := readJSONLLoop visit (lineNumber + 1) rest
      ((record, lineNumber) :: res.1, res.2)

/-- `ReadJSONL` (runtime.go): decode records one at a time starting at line
number 1 until EOF. -/
def ReadJSONL (input : JSONLStream)
    (visit : JSONLRecord → Nat → Option String) :
    List (JSONLRecord × Nat) × Option String :=
  readJSONLLoop visit 1 input

/-- Pair the records of a list with consecutive line numbers starting at
`n`. -/
def numberFrom (n : Nat) : List JSONLRecord → List (JSONLRecord × Nat)
  | [] => []
  | r :: rest => (r, n) :: numberFrom (n + 1) rest

/-- The execution of one `CREATE TABLE IF NOT EXISTS` statement over the
set of existing table names. -/
def createTableIfNotExists (tables : List String) (name : String) :
    List String :=
  if name ∈ tables then tables else tables ++ [name]

/-- `EnsureCoreTables` (runtime.go): nil-handle guard, then the four
idempotent core-table creates in source order. -/
def EnsureCoreTables (q : Option (List String)) : Except String (List String) :=
  match q with
  | none => .error "nil DBTX"
  | some tables =>
    .ok (createTableIfNotExists (createTableIfNotExists
      (createTableIfNotExists (createTableIfNotExists tables
        CoreTableDeletedName) CoreTableSyncName) CoreTableSchemaStateName)
      CoreTableUnknownName)

/-- `EnsureManagedIndexes` (runtime.go) over the list of index names on the
target table: nil-handle guard; execute each `CREATE INDEX IF NOT EXISTS`
(modelled by the name it creates); enumerate the table's indexes, collect
those that carry the generator prefix but are not desired; drop each
collected stale index. -/
def EnsureManagedIndexes (q : Option (List String))
    (tableName generatedIndexPrefix : String)
    (createIndexNames desiredIndexNames : List String) :
    Except String (List String) :=
  match q with
  | none => .error "nil DBTX"
  | some indexes =>
    let afterCreate := createIndexNames.foldl
      (fun acc n => if n ∈ acc then acc else acc ++ [n]) indexes
    let staleGeneratedIndexes := afterCreate.filter
      (fun n => goHasPrefix generatedIndexPrefix n ∧ n ∉ desiredIndexNames)
    .ok (staleGeneratedIndexes.foldl
      (fun acc n => acc.filter (fun m => m ≠ n)) afterCreate)

/-- The lowercase hex digit of Go's `%x` formatting verb: `0`–`9` for
values below ten, `a`–`f` above. -/
def hexDigitChar (n : Nat) : Char :=
  if n < 10 then Char.ofNat (48 + n) else Char.ofNat (87 + n)

/-- Membership in the lowercase hex alphabet. -/
def isLowerHexDigit (c : Char) : Bool :=
  ('0' ≤ c ∧ c ≤ '9') ∨ ('a' ≤ c ∧ c ≤ 'f')

/-- The digits Go's `encoding/hex` decoder accepts (either case). -/
def isGoHexDigit (c : Char) : Bool :=
  ('0' ≤ c ∧ c ≤ '9') ∨ ('a' ≤ c ∧ c ≤ 'f') ∨ ('A' ≤ c ∧ c ≤ 'F')

/-- Go's `%0<w>x` formatting of a value below `16^w`: exactly `w` lowercase
hex characters, most significant first. -/
def padHexChars : Nat → Nat → List Char
  | 0, _ => []
  | w + 1, n => padHexChars w (n / 16) ++ [hexDigitChar (n % 16)]

/-- Numeric value of a lowercase hex digit (inverse of
`hexDigitChar`). -/
def hexCharVal (c : Char) : Nat :=
  if '0' ≤ c ∧ c ≤ '9' then c.toNat - 48 else c.toNat - 87

/-- Big-endian numeric value of a hex character list. -/
def hexListVal : List Char → Nat
  | [] => 0
  | c :: cs => hexCharVal c * 16 ^ cs.length + hexListVal cs

/-- `UUIDv7` (runtime.go) as a function of the sixteen bytes delivered by
`crypto/rand` and the current `UnixMilli` value: overwrite bytes 0–5 with
the big-endian low 48 bits of the milliseconds, force the version nibble
`0x7` into the high nibble of byte 6 (`(b & 0x0f) | 0x70`) and the variant
`10` into the high bits of byte 8 (`(b & 0x3f) | 0x80`), then print the
five canonical segments with `%08x-%04x-%04x-%04x-%012x`.  The emitted
string is modelled as its character list. -/
def UUIDv7 (randBytes : Fin 16 → Nat) (ms : Nat) : List Char :=
  let b0 := ms / 2 ^ 40 % 256
  let b1 := ms / 2 ^ 32 % 256
  let b2 := ms / 2 ^ 24 % 256
  let b3 := ms / 2 ^ 16 % 256
  let b4 := ms / 2 ^ 8 % 256
  let b5 := ms % 256
  let b6 := randBytes 6 % 16 + 0x70
  let b7 := randBytes 7
  let b8 := randBytes 8 % 64 + 0x80
  let b9 := randBytes 9
  let segment1 := ((b0 * 256 + b1) * 256 + b2) * 256 + b3
  let segment2 := b4 * 256 + b5
  let segment3 := b6 * 256 + b7
  let segment4 := b8 * 256 + b9
  let segment5 := ((((randBytes 10 * 256 + randBytes 11) * 256 +
    randBytes 12) * 256 + randBytes 13) * 256 + randBytes 14) * 256 +
    randBytes 15
  padHexChars 8 segment1 ++ '-' :: (padHexChars 4 segment2 ++ '-' ::
    (padHexChars 4 segment3 ++ '-' :: (padHexChars 4 segment4 ++ '-' ::
      padHexChars 12 segment5)))

/-- Go's `strings.Split` on a one-character separator. -/
def splitOnChar (c : Char) : List Char → List (List Char)
  | [] => [[]]
  | x :: xs =>
    if x = c then [] :: splitOnChar c xs
    else
      match splitOnChar c xs with
      | [] => [[x]]
      | p :: ps => (x :: p) :: ps

/-- Whether Go's strict `hex.DecodeString` succeeds: even length and every
character a hex digit of either case. -/
def goHexDecodable (s : List Char) : Bool :=
  s.length % 2 = 0 ∧ s.all isGoHexDigit

/-- The indexed loop of `ValidateUUID` over the split parts and the
expected lengths `[8, 4, 4, 4, 12]`. -/
def validateUUIDParts (id : List Char) :
    Nat → List (List Char) → List Nat → Option String
  | _, [], _ => none
  | _, _ :: _, [] => none
  | index, part :: parts, len :: lensRest =>
    if part.length ≠ len then
      some ("invalid uuid " ++ String.mk id ++
        ": unexpected length for part " ++ toString (index + 1))
    else if ¬ goHexDecodable part = true then
      some ("invalid uuid " ++ String.mk id ++ ": invalid hex")
    else validateUUIDParts id (index + 1) parts lensRest

/-- `ValidateUUID` (runtime.go): split on `-`, require five parts of
lengths 8, 4, 4, 4, 12, each strictly hex-decodable; `none` means the id
is accepted. -/
def ValidateUUID (id : List Char) : Option String :=
  let parts := splitOnChar '-' id
  if parts.length ≠ 5 then
    some ("invalid uuid " ++ String.mk id ++ ": expected 5 parts")
  else validateUUIDParts id 0 parts [8, 4, 4, 4, 12]

/-- The canonical UUID shape as the spec words it: five hyphen-separated
groups of hex digits (either case) with lengths 8, 4, 4, 4 and 12. -/
def uuidShape (id : List Char) : Prop :=
  ∃ g1 g2 g3 g4 g5 : List Char,
    id = g1 ++ '-' :: (g2 ++ '-' :: (g3 ++ '-' :: (g4 ++ '-' :: g5))) ∧
    g1.length = 8 ∧ g2.length = 4 ∧ g3.length = 4 ∧ g4.length = 4 ∧
    g5.length = 12 ∧
    (g1 ++ g2 ++ g3 ++ g4 ++ g5).all isGoHexDigit = true

/-- The inverse of `splitOnChar`: rejoin the parts with the separator. -/
def joinChar (c : Char) : List (List Char) → List Char
  | [] => []
  | [p] => p
  | p :: ps => p ++ c :: joinChar c ps

/-- `GeneratedTableDescriptor` (runtime.go). -/
structure GeneratedTableDescriptor where
  tableName : String
  typeName : String
  isCore : Bool
  syncEnabled : Bool
deriving DecidableEq, Repr

/-- `TableIntrospection` (runtime.go). -/
structure TableIntrospection where
  descriptor : GeneratedTableDescriptor
  objectCount : Int
  diskUsageBytes : Int
deriving DecidableEq, Repr

/-- The per-descriptor loop of `IntrospectTables`: each table yields its
`(object_count, disk_usage_bytes)` pair from the database, a missing table
surfaces as a table-qualified error. -/
def introspectLoop (stats : String → Option (Int × Int)) :
    List GeneratedTableDescriptor → Except String (List TableIntrospection)
  | [] => .ok []
  | d :: rest =>
    match stats d.tableName with
    | none => .error ("count objects for table " ++ d.tableName ++
        ": no such table")
    | some (cnt, bytes) =>
      match introspectLoop stats rest with
      | .error e => .error e
      | .ok tail => .ok ({ descriptor := d, objectCount := cnt,
                           diskUsageBytes := bytes } :: tail)

/-- `IntrospectTables` (runtime.go): nil-handle guard, then the
per-descriptor count and disk-usage reads. -/
def IntrospectTables (q : Option (String → Option (Int × Int)))
    (descriptors : List GeneratedTableDescriptor) :
    Except String (List TableIntrospection) :=
  match q with
  | none => .error "nil DBTX"
  | some stats => introspectLoop stats descriptors

end ProprDB

namespace ProprDB

/-- C1: Sync watermark upsert is monotone: with a non-empty remote,
`SyncUpsert` stores `max(existing, t)` at the key (creating the row with
`t` when absent), hence a later upsert with `t' < t` never decreases the
stored value; with the empty remote it is a no-op. -/
theorem syncUpsert_monotone (q : SyncDB) (objectID tableName remote : String)
    (t : Int) (hremote : remote ≠ "") :
    (SyncUpsert q objectID tableName remote t objectID tableName remote =
      some ((q objectID tableName remote).elim t (fun old => max old t)))
    ∧ (∀ t' : Int, t' < t →
        ∀ v v' : Int,
          SyncUpsert q objectID tableName remote t objectID tableName remote
            = some v →
          SyncUpsert (SyncUpsert q objectID tableName remote t)
              objectID tableName remote t' objectID tableName remote
            = some v' →
          v ≤ v')
    ∧ (∀ s : Int, SyncUpsert q objectID tableName "" s = q) := by
  refine ⟨?_, ?_, ?_⟩
  · simp only [SyncUpsert, if_neg hremote, and_self, if_true]
    cases h : q objectID tableName remote with
    | none => rfl
    | some old =>
      simp only [Option.elim]
      congr 1
      rw [max_def]
      split_ifs <;> omega
  · intro t' _ v v' hv hv'
    simp only [SyncUpsert, if_neg hremote, and_self, if_true] at hv hv'
    rw [hv] at hv'
    have hstep : (if t' > v then t' else v) = v' := by
      exact Option.some_injective _ hv'
    split_ifs at hstep <;> omega
  · intro s
    simp [SyncUpsert]

/-- Witness for `syncUpsert_monotone` at a concrete state. -/
theorem syncUpsert_monotone_witness :
    ("r" : String) ≠ "" ∧
    ((SyncUpsert (fun _ _ _ => some 5) "o" "t" "r" 9) "o" "t" "r" =
      some (((fun (_ _ _ : String) => some (5 : Int)) "o" "t" "r").elim 9
        (fun old => max old 9))) := by
  refine ⟨by decide, ?_⟩
  exact (syncUpsert_monotone (fun _ _ _ => some 5) "o" "t" "r" 9
    (by decide)).1

/-- C2: `SyncNeedsSend` returns true iff the remote is empty (in which case
it is true for every database state, without consulting it), or no `_sync`
row exists, or the stored `at_ns` is strictly below the passed one. -/
theorem syncNeedsSend_spec (q : SyncDB) (objectID tableName remote : String)
    (atNs : Int) :
    (SyncNeedsSend q objectID tableName remote atNs = true ↔
      (remote = "" ∨ q objectID tableName remote = none ∨
        ∃ s : Int, q objectID tableName remote = some s ∧ s < atNs))
    ∧ (∀ q' : SyncDB, SyncNeedsSend q' objectID tableName "" atNs = true) := by
  constructor
  · unfold SyncNeedsSend
    by_cases hremote : remote = ""
    · simp [hremote]
    · rw [if_neg hremote]
      cases h : q objectID tableName remote with
      | none => simp [hremote, h]
      | some s =>
        simp only [h, hremote, false_or, decide_eq_true_eq]
        constructor
        · intro hs
          exact Or.inr ⟨s, rfl, hs⟩
        · rintro (hnone | ⟨s', hs', hlt⟩)
          · exact absurd hnone (by simp)
          · cases Option.some_injective _ hs'
            exact hlt
  · intro q'
    simp [SyncNeedsSend]

/-- C3: `LocalMaxAtNs` returns the maximum of the live row's `at_ns`
(when present), the tombstone's `at_ns` (when present) and `-1`, and
performs exactly two point reads. -/
theorem localMaxAtNs_spec (live : LiveDB) (dead : DeletedDB)
    (tableName objectID : String) :
    LocalMaxAtNs live dead tableName objectID =
      (max (max (-1) ((live tableName objectID).getD (-1)))
        ((dead tableName objectID).getD (-1)), 2) := by
  unfold LocalMaxAtNs livePointRead tombstonePointRead
  cases hl : live tableName objectID <;> cases hd : dead tableName objectID <;>
    simp only [Option.getD_some, Option.getD_none, Prod.mk.injEq] <;>
    refine ⟨?_, trivial⟩ <;> simp only [max_def] <;> split_ifs <;> omega

/-- Membership in the result of executing a sequence of
`DROP INDEX IF EXISTS` statements. -/
theorem mem_foldl_dropIndexes (names : List String) (acc : List String)
    (n : String) :
    (n ∈ names.foldl (fun acc m => acc.filter (fun x => x ≠ m)) acc) ↔
      n ∈ acc ∧ n ∉ names := by
  induction names generalizing acc with
  | nil => simp
  | cons m rest ih =>
    simp only [List.foldl_cons, ih, List.mem_filter, List.mem_cons,
      decide_eq_true_eq]
    constructor
    · rintro ⟨⟨ha, hne⟩, hrest⟩
      exact ⟨ha, by rintro (h | h) <;> [exact hne h; exact hrest h]⟩
    · rintro ⟨ha, hnot⟩
      exact ⟨⟨ha, fun h => hnot (Or.inl h)⟩, fun h => hnot (Or.inr h)⟩

/-- Membership in the result of executing a sequence of
`CREATE INDEX IF NOT EXISTS` statements. -/
theorem mem_foldl_createIndexes (names : List String) (acc : List String)
    (n : String) :
    (n ∈ names.foldl (fun acc c => if c ∈ acc then acc else acc ++ [c]) acc) ↔
      n ∈ acc ∨ n ∈ names := by
  induction names generalizing acc with
  | nil => simp
  | cons c rest ih =>
    simp only [List.foldl_cons, List.mem_cons]
    by_cases hc : c ∈ acc
    · rw [if_pos hc, ih]
      constructor
      · rintro (h | h)
        · exact Or.inl h
        · exact Or.inr (Or.inr h)
      · rintro (h | h | h)
        · exact Or.inl h
        · exact Or.inl (h ▸ hc)
        · exact Or.inr h
    · rw [if_neg hc, ih]
      simp only [List.mem_append, List.mem_singleton]
      tauto

/-- C9: after a successful `EnsureManagedIndexes` whose create statements
create exactly the desired (prefix-carrying) index names, the indexes on
the table carrying the generator prefix are exactly the desired ones, and
every index without the prefix is untouched. -/
theorem ensureManagedIndexes_spec (indexes : List String)
    (tableName generatedIndexPrefix : String)
    (createIndexNames desiredIndexNames : List String)
    (hcreate : createIndexNames = desiredIndexNames)
    (hpref : ∀ n ∈ desiredIndexNames, goHasPrefix generatedIndexPrefix n = true)
    (final : List String)
    (hrun : EnsureManagedIndexes (some indexes) tableName
      generatedIndexPrefix createIndexNames desiredIndexNames = .ok final) :
    (∀ n, (n ∈ final ∧ goHasPrefix generatedIndexPrefix n = true) ↔
      n ∈ desiredIndexNames) ∧
    (∀ n, goHasPrefix generatedIndexPrefix n = false →
      (n ∈ final ↔ n ∈ indexes)) := by
  rw [hcreate] at hrun
  simp only [EnsureManagedIndexes, Except.ok.injEq] at hrun
  subst hrun
  constructor
  · intro n
    constructor
    · rintro ⟨hfin, hp⟩
      rcases (mem_foldl_dropIndexes _ _ _).1 hfin with ⟨hac, hstale⟩
      by_cases hd : n ∈ desiredIndexNames
      · exact hd
      · exfalso
        apply hstale
        rw [List.mem_filter]
        exact ⟨hac, decide_eq_true ⟨hp, hd⟩⟩
    · intro hd
      refine ⟨?_, hpref n hd⟩
      rw [mem_foldl_dropIndexes]
      refine ⟨(mem_foldl_createIndexes _ _ _).2 (Or.inr hd), ?_⟩
      intro hstale
      rw [List.mem_filter] at hstale
      exact (of_decide_eq_true hstale.2).2 hd
  · intro n hp
    rw [mem_foldl_dropIndexes]
    constructor
    · rintro ⟨hac, -⟩
      rcases (mem_foldl_createIndexes _ _ _).1 hac with h | h
      · exact h
      · exact absurd (hpref n h) (by simp [hp])
    · intro hi
      refine ⟨(mem_foldl_createIndexes _ _ _).2 (Or.inl hi), ?_⟩
      intro hstale
      rw [List.mem_filter] at hstale
      exact absurd (of_decide_eq_true hstale.2).1 (by simp [hp])

/-- Witness for `ensureManagedIndexes_spec` at a concrete state. -/
theorem ensureManagedIndexes_spec_witness :
    (∀ n, (n ∈ (["user_idx", "idx_t__a"] : List String) ∧
      goHasPrefix "idx_t__" n = true) ↔
      n ∈ (["idx_t__a"] : List String)) ∧
    (∀ n, goHasPrefix "idx_t__" n = false →
      (n ∈ (["user_idx", "idx_t__a"] : List String) ↔
        n ∈ (["idx_t__b", "user_idx"] : List String))) := by
  have h := ensureManagedIndexes_spec ["idx_t__b", "user_idx"] "t" "idx_t__"
    ["idx_t__a"] ["idx_t__a"] rfl (by decide) ["user_idx", "idx_t__a"]
    (by rfl)
  exact h

theorem omax_eq_none_iff {α : Type} [LinearOrder α] (l : List α) :
    omax l = none ↔ l = [] := by
  cases l with
  | nil => simp [omax]
  | cons x xs =>
    simp only [omax]
    cases omax xs <;> simp

theorem omax_mem {α : Type} [LinearOrder α] {l : List α} {m : α}
    (h : omax l = some m) : m ∈ l := by
  induction l generalizing m with
  | nil => simp [omax] at h
  | cons x xs ih =>
    simp only [omax] at h
    cases hxs : omax xs with
    | none =>
      rw [hxs] at h
      cases h
      exact List.mem_cons_self _ _
    | some m' =>
      rw [hxs] at h
      cases h
      rcases max_choice x m' with hc | hc
      · rw [hc]; exact List.mem_cons_self _ _
      · rw [hc]; exact List.mem_cons_of_mem _ (ih hxs)

theorem le_omax {α : Type} [LinearOrder α] {l : List α} {m : α}
    (h : omax l = some m) : ∀ x ∈ l, x ≤ m := by
  induction l generalizing m with
  | nil => simp
  | cons y xs ih =>
    simp only [omax] at h
    intro x hx
    rcases List.mem_cons.1 hx with hxy | hxs
    · subst hxy
      cases hys : omax xs with
      | none => rw [hys] at h; cases h; exact le_refl _
      | some m' => rw [hys] at h; cases h; exact le_max_left _ _
    · cases hys : omax xs with
      | none =>
        rw [(omax_eq_none_iff xs).1 hys] at hxs
        cases hxs
      | some m' =>
        rw [hys] at h
        cases h
        exact le_trans (ih hys x hxs) (le_max_right _ _)

theorem omax_isSome_of_ne_nil {α : Type} [LinearOrder α] {l : List α}
    (h : l ≠ []) : ∃ m, omax l = some m := by
  cases hm : omax l with
  | none => exact absurd ((omax_eq_none_iff l).1 hm) h
  | some m => exact ⟨m, rfl⟩

theorem mem_rowsForKey {db : UnknownTable} {tn id : String} {r : URow} :
    r ∈ rowsForKey db tn id ↔ r ∈ db ∧ r.typeName = tn ∧ r.id = id := by
  simp [rowsForKey, List.mem_filter]

theorem rowsForKey_filter (db : UnknownTable) (p : URow → Bool)
    (tn id : String) :
    rowsForKey (db.filter p) tn id = (rowsForKey db tn id).filter p := by
  rw [rowsForKey, rowsForKey, List.filter_filter, List.filter_filter]
  exact List.filter_congr (fun a _ => Bool.and_comm _ _)

/-- In a list of rows with pairwise-distinct rowids, filtering on one
member's rowid returns exactly that member. -/
theorem filter_rowid_eq_of_nodup {l : List URow}
    (h : (l.map URow.rowid).Nodup) {r : URow} (hr : r ∈ l) :
    l.filter (fun x => x.rowid = r.rowid) = [r] := by
  induction l with
  | nil => cases hr
  | cons a t ih =>
    rw [List.map_cons, List.nodup_cons] at h
    rcases List.mem_cons.1 hr with hra | hrt
    · subst hra
      rw [List.filter_cons, if_pos (by simp)]
      congr 1
      rw [List.filter_eq_nil_iff]
      intro x hx hpx
      apply h.1
      rw [List.mem_map]
      exact ⟨x, hx, (of_decide_eq_true hpx).symm ▸ rfl⟩
    · have hne : (a.rowid = r.rowid) = False := by
        simp only [eq_iff_iff, iff_false]
        intro heq
        apply h.1
        rw [List.mem_map]
        exact ⟨r, hrt, heq.symm⟩
      rw [List.filter_cons, if_neg (by simp [hne])]
      exact ih h.2 hrt

/-- Unpacking a group's kept rowid: it belongs to a row of the group whose
`at_ns` attains the group maximum. -/
theorem keptRowidForKey_spec {db : UnknownTable} {tn id : String} {w : Nat}
    (h : keptRowidForKey db tn id = some w) :
    ∃ rw ∈ rowsForKey db tn id, rw.rowid = w ∧
      some rw.atNs = maxAtNsForKey db tn id := by
  have hmem := omax_mem h
  rw [List.mem_map] at hmem
  obtain ⟨rw, hrw, hrowid⟩ := hmem
  rw [List.mem_filter] at hrw
  exact ⟨rw, hrw.1, hrowid, of_decide_eq_true hrw.2⟩

/-- A nonempty group has a kept rowid. -/
theorem keptRowidForKey_isSome {db : UnknownTable} {tn id : String}
    (h : rowsForKey db tn id ≠ []) :
    ∃ w, keptRowidForKey db tn id = some w := by
  have hatne : (rowsForKey db tn id).map URow.atNs ≠ [] := by
    simpa using h
  obtain ⟨m, hm⟩ := omax_isSome_of_ne_nil hatne
  have hmmem := omax_mem hm
  rw [List.mem_map] at hmmem
  obtain ⟨rm, hrm, hrmat⟩ := hmmem
  apply omax_isSome_of_ne_nil
  intro hnil
  rw [List.map_eq_nil_iff, List.filter_eq_nil_iff] at hnil
  apply hnil rm hrm
  rw [maxAtNsForKey, hm, hrmat]
  exact decide_eq_true rfl

/-- A kept rowid belonging to a row identifies that row's own group's kept
rowid (under distinct rowids). -/
theorem keptRowidForKey_of_mem_keptRowids {db : UnknownTable}
    (h : (db.map URow.rowid).Nodup) {r : URow} (hr : r ∈ db)
    (hk : r.rowid ∈ keptRowids db) :
    keptRowidForKey db r.typeName r.id = some r.rowid := by
  rw [keptRowids, List.mem_filterMap] at hk
  obtain ⟨g, _, hg⟩ := hk
  obtain ⟨rw, hrwmem, hrwid, -⟩ := keptRowidForKey_spec hg
  have hrweq : rw = r :=
    List.inj_on_of_nodup_map h (mem_rowsForKey.1 hrwmem).1 hr hrwid
  have h1 : r.typeName = g.1 := by
    rw [← hrweq]
    exact (mem_rowsForKey.1 hrwmem).2.1
  have h2 : r.id = g.2 := by
    rw [← hrweq]
    exact (mem_rowsForKey.1 hrwmem).2.2
  rw [h1, h2]
  exact hg

/-- Conversely, a row's own group's kept rowid is in the global kept
set. -/
theorem mem_keptRowids_of_keptRowidForKey {db : UnknownTable} {r : URow}
    (hr : r ∈ db) (hk : keptRowidForKey db r.typeName r.id = some r.rowid) :
    r.rowid ∈ keptRowids db := by
  rw [keptRowids, List.mem_filterMap]
  refine ⟨(r.typeName, r.id), ?_, hk⟩
  rw [groupKeys, List.mem_dedup, List.mem_map]
  exact ⟨r, hr, rfl⟩

/-- C4: after `CompactUnknownLatest`, every `(type_name, id)` group that
had at least one quarantine row retains exactly one row, whose `at_ns` is
the group's pre-compaction maximum; groups without rows stay empty, and no
row is invented. -/
theorem compactUnknownLatest_spec (db : UnknownTable)
    (h : (db.map URow.rowid).Nodup) :
    CompactUnknownLatest (some db) = .ok (compactUnknown db) ∧
    (∀ tn id, rowsForKey db tn id ≠ [] →
      ∃ r, rowsForKey (compactUnknown db) tn id = [r] ∧
        some r.atNs = maxAtNsForKey db tn id) ∧
    (∀ tn id, rowsForKey db tn id = [] →
      rowsForKey (compactUnknown db) tn id = []) ∧
    (∀ r ∈ compactUnknown db, r ∈ db) := by
  refine ⟨rfl, ?_, ?_, ?_⟩
  · intro tn id hne
    obtain ⟨w, hw⟩ := keptRowidForKey_isSome hne
    obtain ⟨rw, hrwmem, hrwid, hrwat⟩ := keptRowidForKey_spec hw
    refine ⟨rw, ?_, hrwat⟩
    rw [compactUnknown, rowsForKey_filter]
    have hnodup : ((rowsForKey db tn id).map URow.rowid).Nodup :=
      h.sublist ((List.filter_sublist db).map URow.rowid)
    rw [← filter_rowid_eq_of_nodup hnodup hrwmem]
    apply List.filter_congr
    intro r hrmem
    rw [decide_eq_decide]
    have hrdb := (mem_rowsForKey.1 hrmem).1
    constructor
    · intro hkept
      have hkey := keptRowidForKey_of_mem_keptRowids h hrdb hkept
      rw [(mem_rowsForKey.1 hrmem).2.1, (mem_rowsForKey.1 hrmem).2.2,
        hw] at hkey
      rw [Option.some.injEq] at hkey
      rw [hrwid, ← hkey]
    · intro heq
      have hrwdb := (mem_rowsForKey.1 hrwmem).1
      rw [heq]
      apply mem_keptRowids_of_keptRowidForKey hrwdb
      rw [(mem_rowsForKey.1 hrwmem).2.1, (mem_rowsForKey.1 hrwmem).2.2,
        hw, hrwid]
  · intro tn id hempty
    rw [compactUnknown, rowsForKey_filter, hempty]
    rfl
  · intro r hr
    exact List.mem_of_mem_filter hr

/-- A concrete two-row quarantine state for the compaction witness. -/
def compactWitnessDB : UnknownTable :=
  [{ rowid := 1, typeName := "T", id := "a", atNs := 5, deleted := 0,
     dataJson := "x" },
   { rowid := 2, typeName := "T", id := "a", atNs := 7, deleted := 0,
     dataJson := "y" }]

/-- Witness for `compactUnknownLatest_spec` at a concrete state. -/
theorem compactUnknownLatest_spec_witness :
    ((compactWitnessDB.map URow.rowid).Nodup) ∧
    (CompactUnknownLatest (some compactWitnessDB) =
      .ok (compactUnknown compactWitnessDB) ∧
    (∀ tn id, rowsForKey compactWitnessDB tn id ≠ [] →
      ∃ r, rowsForKey (compactUnknown compactWitnessDB) tn id = [r] ∧
        some r.atNs = maxAtNsForKey compactWitnessDB tn id) ∧
    (∀ tn id, rowsForKey compactWitnessDB tn id = [] →
      rowsForKey (compactUnknown compactWitnessDB) tn id = []) ∧
    (∀ r ∈ compactUnknown compactWitnessDB, r ∈ compactWitnessDB)) :=
  ⟨by decide, compactUnknownLatest_spec compactWitnessDB (by decide)⟩

/-- Characterization of the replay loop: over a pre-collected row list it
applies the longest all-successful prefix plus the first failing row,
deletes the keys of the successful prefix, and reports the wrapped first
failure. -/
theorem replayLoop_eq (tn : String) (apply : JSONLRecord → Option String)
    (rows : List URow) :
    ∀ db : UnknownTable,
      replayLoop tn apply db rows =
        (db.filter (fun r => ¬(r.typeName = tn ∧ r.id ∈
            (rows.takeWhile
              (fun r => (apply (rowToRecord r)).isNone)).map URow.id)),
         ((rows.takeWhile (fun r => (apply (rowToRecord r)).isNone)) ++
           (rows.dropWhile
             (fun r => (apply (rowToRecord r)).isNone)).take 1).map
               rowToRecord,
         match rows.dropWhile (fun r => (apply (rowToRecord r)).isNone) with
         | [] => none
         | f :: _ => some ("apply unknown row for " ++ tn ++ "/" ++ f.id ++
             ": " ++ ((apply (rowToRecord f)).getD ""))) := by
  induction rows with
  | nil =>
    intro db
    simp [replayLoop, List.filter_eq_self]
  | cons row rest ih =>
    intro db
    cases happly : apply (rowToRecord row) with
    | some e =>
      simp only [replayLoop, happly, List.takeWhile_cons,
        List.dropWhile_cons, Option.isNone_some, Bool.false_eq_true,
        if_false]
      simp [happly, List.filter_eq_self]
    | none =>
      simp only [replayLoop, happly, List.takeWhile_cons,
        List.dropWhile_cons, Option.isNone_none, if_true]
      rw [ih]
      refine congrArg₂ Prod.mk ?_ (congrArg₂ Prod.mk ?_ rfl)
      · rw [List.filter_filter]
        apply List.filter_congr
        intro a _
        rw [← Bool.decide_and, decide_eq_decide]
        simp only [List.map_cons, List.mem_cons]
        tauto
      · rfl

/-- C5: with a non-whitespace type name, `ReplayUnknownByType` compacts the
quarantine, collects that type's remaining rows in ascending
`(at_ns, id, rowid)` order (the collected list is sorted and a permutation
of the compacted rows of that type), invokes `apply` on the longest
all-successful prefix plus the first failing row, deletes all rows for
`(type_name, id)` after each success, and returns the wrapped first
`apply` error with no further rows applied or deleted. -/
theorem replayUnknownByType_spec (db : UnknownTable) (tn : String)
    (apply : JSONLRecord → Option String) (htn : ¬ goTrimSpace tn = "") :
    ReplayUnknownByType (some db) tn apply =
      .ok ((compactUnknown db).filter (fun r => ¬(r.typeName = tn ∧ r.id ∈
          ((selectUnknownByType (compactUnknown db) tn).takeWhile
            (fun r => (apply (rowToRecord r)).isNone)).map URow.id)),
        (((selectUnknownByType (compactUnknown db) tn).takeWhile
            (fun r => (apply (rowToRecord r)).isNone)) ++
          ((selectUnknownByType (compactUnknown db) tn).dropWhile
            (fun r => (apply (rowToRecord r)).isNone)).take 1).map
              rowToRecord,
        match (selectUnknownByType (compactUnknown db) tn).dropWhile
            (fun r => (apply (rowToRecord r)).isNone) with
        | [] => none
        | f :: _ => some ("apply unknown row for " ++ tn ++ "/" ++ f.id ++
            ": " ++ ((apply (rowToRecord f)).getD "")))
    ∧ List.Sorted rowLE (selectUnknownByType (compactUnknown db) tn)
    ∧ (selectUnknownByType (compactUnknown db) tn).Perm
        ((compactUnknown db).filter (fun r => r.typeName = tn)) := by
  refine ⟨?_, ?_, ?_⟩
  · simp only [ReplayUnknownByType, if_neg htn, CompactUnknownLatest]
    rw [replayLoop_eq]
  · exact List.sorted_insertionSort rowLE _
  · exact List.perm_insertionSort rowLE _

/-- A concrete two-row quarantine state for the replay witness. -/
def replayWitnessDB : UnknownTable :=
  [{ rowid := 1, typeName := "T", id := "a", atNs := 5, deleted := 0,
     dataJson := "x" },
   { rowid := 2, typeName := "T", id := "b", atNs := 7, deleted := 0,
     dataJson := "y" }]

/-- A concrete apply callback failing on id `b` for the replay witness. -/
def replayWitnessApply : JSONLRecord → Option String :=
  fun rec => if rec.id = "b" then some "boom" else none

/-- Witness for `replayUnknownByType_spec` at a concrete state. -/
theorem replayUnknownByType_spec_witness :
    (¬ goTrimSpace "T" = "") ∧
    (ReplayUnknownByType (some replayWitnessDB) "T" replayWitnessApply =
      .ok ((compactUnknown replayWitnessDB).filter
          (fun r => ¬(r.typeName = "T" ∧ r.id ∈
          ((selectUnknownByType (compactUnknown replayWitnessDB)
              "T").takeWhile
            (fun r => (replayWitnessApply (rowToRecord r)).isNone)).map
              URow.id)),
        (((selectUnknownByType (compactUnknown replayWitnessDB)
              "T").takeWhile
            (fun r => (replayWitnessApply (rowToRecord r)).isNone)) ++
          ((selectUnknownByType (compactUnknown replayWitnessDB)
              "T").dropWhile
            (fun r => (replayWitnessApply (rowToRecord r)).isNone)).take
              1).map rowToRecord,
        match (selectUnknownByType (compactUnknown replayWitnessDB)
            "T").dropWhile
            (fun r => (replayWitnessApply (rowToRecord r)).isNone) with
        | [] => none
        | f :: _ => some ("apply unknown row for " ++ "T" ++ "/" ++ f.id ++
            ": " ++ ((replayWitnessApply (rowToRecord f)).getD "")))
    ∧ List.Sorted rowLE
        (selectUnknownByType (compactUnknown replayWitnessDB) "T")
    ∧ (selectUnknownByType (compactUnknown replayWitnessDB) "T").Perm
        ((compactUnknown replayWitnessDB).filter
          (fun r => r.typeName = "T"))) :=
  ⟨by decide,
    replayUnknownByType_spec replayWitnessDB "T" replayWitnessApply
      (by decide)⟩

/-- The decode loop walks through a prefix of successfully decoded and
successfully visited records, then continues on the remaining stream with
the line counter advanced. -/
theorem readJSONLLoop_prefix (visit : JSONLRecord → Nat → Option String)
    (good : List JSONLRecord) :
    ∀ k : Nat, (∀ p ∈ numberFrom k good, visit p.1 p.2 = none) →
      ∀ tail : JSONLStream,
        readJSONLLoop visit k (good.map Sum.inr ++ tail) =
          (numberFrom k good ++
            (readJSONLLoop visit (k + good.length) tail).1,
           (readJSONLLoop visit (k + good.length) tail).2) := by
  induction good with
  | nil =>
    intro k _ tail
    simp [numberFrom]
  | cons g gs ih =>
    intro k hgood tail
    have hg : visit g k = none := hgood (g, k) (by simp [numberFrom])
    simp only [List.map_cons, List.cons_append, readJSONLLoop, hg,
      List.append_eq]
    rw [ih (k + 1) (fun p hp => hgood p (by simp [numberFrom, hp])) tail]
    have harith : k + 1 + gs.length = k + (gs.length + 1) := by omega
    simp [numberFrom, harith]

/-- C6: `ReadJSONL` visits each successfully decoded record with line
numbers 1, 2, 3, … in stream order; a clean EOF returns no error; a
malformed record aborts with an error naming its line number, the records
before it having been visited; a `visit` error is returned unchanged and
stops further decoding. -/
theorem readJSONL_spec (good : List JSONLRecord)
    (visit : JSONLRecord → Nat → Option String)
    (hgood : ∀ p ∈ numberFrom 1 good, visit p.1 p.2 = none) :
    (ReadJSONL (good.map Sum.inr) visit = (numberFrom 1 good, none))
    ∧ (∀ decodeErr rest,
        ReadJSONL (good.map Sum.inr ++ Sum.inl decodeErr :: rest) visit =
          (numberFrom 1 good,
           some ("decode jsonl line " ++ toString (good.length + 1) ++
             ": " ++ decodeErr)))
    ∧ (∀ bad e rest, visit bad (good.length + 1) = some e →
        ReadJSONL (good.map Sum.inr ++ Sum.inr bad :: rest) visit =
          (numberFrom 1 good ++ [(bad, good.length + 1)], some e)) := by
  refine ⟨?_, ?_, ?_⟩
  · have h := readJSONLLoop_prefix visit good 1 hgood []
    rw [List.append_nil] at h
    rw [ReadJSONL, h]
    simp [readJSONLLoop]
  · intro decodeErr rest
    rw [ReadJSONL, readJSONLLoop_prefix visit good 1 hgood]
    have harith : 1 + good.length = good.length + 1 := by omega
    simp [readJSONLLoop, harith]
  · intro bad e rest hbad
    rw [ReadJSONL, readJSONLLoop_prefix visit good 1 hgood]
    have harith : 1 + good.length = good.length + 1 := by omega
    rw [harith]
    simp [readJSONLLoop, hbad]

/-- A concrete record for the reader witness. -/
def readWitnessRecord : JSONLRecord :=
  { id := "a", deleted := false, atNs := 3, data := "x" }

/-- A concrete visit callback for the reader witness, failing from line 2
on. -/
def readWitnessVisit : JSONLRecord → Nat → Option String :=
  fun _ n => if n = 2 then some "stop" else none

/-- Witness for `readJSONL_spec` at a concrete stream. -/
theorem readJSONL_spec_witness :
    (∀ p ∈ numberFrom 1 [readWitnessRecord],
      readWitnessVisit p.1 p.2 = none) ∧
    ((ReadJSONL ([readWitnessRecord].map Sum.inr) readWitnessVisit =
      (numberFrom 1 [readWitnessRecord], none))
    ∧ (∀ decodeErr rest,
        ReadJSONL ([readWitnessRecord].map Sum.inr ++
            Sum.inl decodeErr :: rest) readWitnessVisit =
          (numberFrom 1 [readWitnessRecord],
           some ("decode jsonl line " ++
             toString (([readWitnessRecord] : List JSONLRecord).length + 1)
             ++ ": " ++ decodeErr)))
    ∧ (∀ bad e rest,
        readWitnessVisit bad
            (([readWitnessRecord] : List JSONLRecord).length + 1) = some e →
        ReadJSONL ([readWitnessRecord].map Sum.inr ++ Sum.inr bad :: rest)
          readWitnessVisit =
          (numberFrom 1 [readWitnessRecord] ++
            [(bad, ([readWitnessRecord] : List JSONLRecord).length + 1)],
           some e))) :=
  ⟨by decide,
    readJSONL_spec [readWitnessRecord] readWitnessVisit (by decide)⟩

theorem padHexChars_length (w n : Nat) : (padHexChars w n).length = w := by
  induction w generalizing n with
  | zero => rfl
  | succ w ih => simp [padHexChars, ih]

theorem isLowerHexDigit_hexDigitChar (n : Nat) :
    isLowerHexDigit (hexDigitChar (n % 16)) = true := by
  have h : n % 16 < 16 := Nat.mod_lt _ (by norm_num)
  generalize hm : n % 16 = m at h ⊢
  interval_cases m <;> decide

theorem isGoHexDigit_of_lower {c : Char} (h : isLowerHexDigit c = true) :
    isGoHexDigit c = true := by
  rw [isLowerHexDigit] at h
  rw [isGoHexDigit]
  apply decide_eq_true
  rcases of_decide_eq_true h with h2 | h2
  · exact Or.inl h2
  · exact Or.inr (Or.inl h2)

theorem padHexChars_all_lower (w n : Nat) :
    (padHexChars w n).all isLowerHexDigit = true := by
  induction w generalizing n with
  | zero => rfl
  | succ w ih =>
    simp [padHexChars, List.all_append, ih, isLowerHexDigit_hexDigitChar]

theorem hexCharVal_hexDigitChar {d : Nat} (h : d < 16) :
    hexCharVal (hexDigitChar d) = d := by
  interval_cases d <;> decide

theorem hexListVal_append (xs ys : List Char) :
    hexListVal (xs ++ ys) =
      hexListVal xs * 16 ^ ys.length + hexListVal ys := by
  induction xs with
  | nil => simp [hexListVal]
  | cons c cs ih =>
    simp only [hexListVal, List.cons_append, List.append_eq, ih,
      List.length_append, pow_add]
    ring

theorem mod_pow_succ16 (n w : Nat) :
    n % 16 ^ (w + 1) = (n / 16 % 16 ^ w) * 16 + n % 16 := by
  conv_lhs => rw [← Nat.div_add_mod n 16]
  rw [pow_succ']
  rw [Nat.add_mod, Nat.mul_mod_mul_left 16 (n / 16) (16 ^ w)]
  have h1 : n % 16 < 16 := Nat.mod_lt _ (by norm_num)
  have h2 : (16 : Nat) ≤ 16 * 16 ^ w := by
    have : (1 : Nat) ≤ 16 ^ w := Nat.one_le_pow _ _ (by norm_num)
    omega
  rw [Nat.mod_eq_of_lt (lt_of_lt_of_le h1 h2)]
  have h3 : n / 16 % 16 ^ w < 16 ^ w :=
    Nat.mod_lt _ (Nat.pos_pow_of_pos _ (by norm_num))
  rw [Nat.mod_eq_of_lt (by omega)]
  omega

theorem hexListVal_padHexChars (w n : Nat) :
    hexListVal (padHexChars w n) = n % 16 ^ w := by
  induction w generalizing n with
  | zero => simp [padHexChars, hexListVal, Nat.mod_one]
  | succ w ih =>
    rw [padHexChars, hexListVal_append, ih]
    have hd : n % 16 < 16 := Nat.mod_lt _ (by norm_num)
    simp only [hexListVal, List.length_singleton, List.length_nil, pow_one,
      pow_zero, mul_one, add_zero, hexCharVal_hexDigitChar hd]
    rw [mod_pow_succ16]

theorem splitOnChar_ne_nil (c : Char) (xs : List Char) :
    splitOnChar c xs ≠ [] := by
  cases xs with
  | nil => simp [splitOnChar]
  | cons x t =>
    rw [splitOnChar]
    split_ifs
    · simp
    · cases h : splitOnChar c t with
      | nil => simp
      | cons p ps => simp

theorem splitOnChar_of_not_mem {c : Char} {xs : List Char} (h : c ∉ xs) :
    splitOnChar c xs = [xs] := by
  induction xs with
  | nil => rfl
  | cons x t ih =>
    have hx : ¬ x = c := fun heq => h (heq ▸ List.mem_cons_self x t)
    rw [splitOnChar, if_neg hx, ih (fun hm => h (List.mem_cons_of_mem _ hm))]

theorem splitOnChar_append {c : Char} {xs : List Char} (h : c ∉ xs)
    (ys : List Char) :
    splitOnChar c (xs ++ c :: ys) = xs :: splitOnChar c ys := by
  induction xs with
  | nil => simp [splitOnChar]
  | cons x t ih =>
    have hx : ¬ x = c := fun heq => h (heq ▸ List.mem_cons_self x t)
    rw [List.cons_append, splitOnChar, if_neg hx,
      ih (fun hm => h (List.mem_cons_of_mem _ hm))]

theorem not_mem_of_mem_splitOnChar {c : Char} {xs : List Char} :
    ∀ p ∈ splitOnChar c xs, c ∉ p := by
  induction xs with
  | nil =>
    intro p hp
    simp only [splitOnChar, List.mem_singleton] at hp
    subst hp
    simp
  | cons x t ih =>
    intro p hp
    by_cases hx : x = c
    · rw [splitOnChar, if_pos hx] at hp
      rcases List.mem_cons.1 hp with hpe | hpt
      · subst hpe; simp
      · exact ih p hpt
    · rw [splitOnChar, if_neg hx] at hp
      cases hsp : splitOnChar c t with
      | nil => exact absurd hsp (splitOnChar_ne_nil c t)
      | cons q qs =>
        rw [hsp] at hp
        rcases List.mem_cons.1 hp with hpe | hpt
        · subst hpe
          intro hcm
          rcases List.mem_cons.1 hcm with hce | hcq
          · exact hx hce.symm
          · exact ih q (hsp ▸ List.mem_cons_self q qs) hcq
        · exact ih p (hsp ▸ List.mem_cons_of_mem q hpt)

theorem joinChar_splitOnChar (c : Char) (xs : List Char) :
    joinChar c (splitOnChar c xs) = xs := by
  induction xs with
  | nil => rfl
  | cons x t ih =>
    by_cases hx : x = c
    · subst hx
      simp only [splitOnChar, if_pos rfl]
      cases hsp : splitOnChar x t with
      | nil => exact absurd hsp (splitOnChar_ne_nil x t)
      | cons q qs =>
        rw [hsp] at ih
        show joinChar x ([] :: q :: qs) = x :: t
        rw [show joinChar x ([] :: q :: qs) =
            [] ++ x :: joinChar x (q :: qs) from rfl]
        rw [List.nil_append, ih]
    · rw [splitOnChar, if_neg hx]
      cases hsp : splitOnChar c t with
      | nil => exact absurd hsp (splitOnChar_ne_nil c t)
      | cons q qs =>
        rw [hsp] at ih
        cases qs with
        | nil =>
          show x :: q = x :: t
          rw [show joinChar c [q] = q from rfl] at ih
          rw [ih]
        | cons q2 qs2 =>
          show (x :: q) ++ c :: joinChar c (q2 :: qs2) = x :: t
          rw [show joinChar c (q :: q2 :: qs2) =
              q ++ c :: joinChar c (q2 :: qs2) from rfl] at ih
          rw [List.cons_append, ih]

theorem list_length_eq_five {α : Type} {l : List α} (h : l.length = 5) :
    ∃ a b c d e : α, l = [a, b, c, d, e] := by
  cases l with
  | nil => simp at h
  | cons a l1 =>
    cases l1 with
    | nil => simp at h
    | cons b l2 =>
      cases l2 with
      | nil => simp at h
      | cons c l3 =>
        cases l3 with
        | nil => simp at h
        | cons d l4 =>
          cases l4 with
          | nil => simp at h
          | cons e l5 =>
            cases l5 with
            | nil => exact ⟨a, b, c, d, e, rfl⟩
            | cons f l6 => simp at h

theorem hyphen_not_mem_of_all_goHex {g : List Char}
    (h : g.all isGoHexDigit = true) : ('-' : Char) ∉ g := by
  intro hm
  have hc := List.all_eq_true.1 h _ hm
  exact absurd hc (by decide)

theorem all_goHex_of_all_lower {l : List Char}
    (h : l.all isLowerHexDigit = true) : l.all isGoHexDigit = true := by
  rw [List.all_eq_true] at h ⊢
  intro c hc
  exact isGoHexDigit_of_lower (h c hc)

/-- The part loop accepts exactly when every part has its expected length
and is strictly hex-decodable. -/
theorem validateUUIDParts_none_iff (id : List Char)
    (parts : List (List Char)) :
    ∀ (index : Nat) (lens : List Nat), parts.length = lens.length →
      (validateUUIDParts id index parts lens = none ↔
        ∀ pl ∈ parts.zip lens,
          pl.1.length = pl.2 ∧ goHexDecodable pl.1 = true) := by
  induction parts with
  | nil =>
    intro index lens _
    simp [validateUUIDParts]
  | cons p ps ih =>
    intro index lens hlen
    cases lens with
    | nil => simp at hlen
    | cons len lrest =>
      simp only [validateUUIDParts]
      by_cases hli : p.length ≠ len
      · rw [if_pos hli]
        constructor
        · intro h
          cases h
        · intro hall
          exact absurd (hall (p, len) (by simp)).1 hli
      · rw [if_neg hli]
        by_cases hdx : goHexDecodable p = true
        · rw [if_neg (not_not_intro hdx)]
          rw [ih (index + 1) lrest (by simpa using hlen)]
          constructor
          · intro hall pl hpl
            simp only [List.zip_cons_cons, List.mem_cons] at hpl
            rcases hpl with hpe | hpt
            · subst hpe
              exact ⟨not_ne_iff.1 hli, hdx⟩
            · exact hall pl hpt
          · intro hall pl hpl
            apply hall
            simp only [List.zip_cons_cons, List.mem_cons]
            exact Or.inr hpl
        · rw [if_pos hdx]
          constructor
          · intro h
            cases h
          · intro hall
            exact absurd (hall (p, len) (by simp)).2 hdx

theorem validateUUID_of_shape {g1 g2 g3 g4 g5 : List Char}
    (h1 : g1.length = 8) (h2 : g2.length = 4) (h3 : g3.length = 4)
    (h4 : g4.length = 4) (h5 : g5.length = 12)
    (hall : (g1 ++ g2 ++ g3 ++ g4 ++ g5).all isGoHexDigit = true) :
    ValidateUUID (g1 ++ '-' :: (g2 ++ '-' :: (g3 ++ '-' ::
      (g4 ++ '-' :: g5)))) = none := by
  simp only [List.all_append, Bool.and_eq_true] at hall
  obtain ⟨⟨⟨⟨ha1, ha2⟩, ha3⟩, ha4⟩, ha5⟩ := hall
  have hsplit : splitOnChar '-' (g1 ++ '-' :: (g2 ++ '-' :: (g3 ++ '-' ::
      (g4 ++ '-' :: g5)))) = [g1, g2, g3, g4, g5] := by
    rw [splitOnChar_append (hyphen_not_mem_of_all_goHex ha1),
      splitOnChar_append (hyphen_not_mem_of_all_goHex ha2),
      splitOnChar_append (hyphen_not_mem_of_all_goHex ha3),
      splitOnChar_append (hyphen_not_mem_of_all_goHex ha4),
      splitOnChar_of_not_mem (hyphen_not_mem_of_all_goHex ha5)]
  rw [ValidateUUID]
  simp only [hsplit, List.length_cons, List.length_nil]
  rw [if_neg (by norm_num)]
  rw [validateUUIDParts_none_iff _ _ 0 [8, 4, 4, 4, 12] (by simp)]
  intro pl hpl
  simp only [List.zip_cons_cons, List.zip_nil_right, List.mem_cons,
    List.not_mem_nil, or_false] at hpl
  rcases hpl with hp | hp | hp | hp | hp <;> subst hp
  · exact ⟨h1, decide_eq_true ⟨by rw [h1], ha1⟩⟩
  · exact ⟨h2, decide_eq_true ⟨by rw [h2], ha2⟩⟩
  · exact ⟨h3, decide_eq_true ⟨by rw [h3], ha3⟩⟩
  · exact ⟨h4, decide_eq_true ⟨by rw [h4], ha4⟩⟩
  · exact ⟨h5, decide_eq_true ⟨by rw [h5], ha5⟩⟩

/-- C8: `ValidateUUID` accepts a character string iff it consists of
exactly five hyphen-separated groups of hex digits (either case) with
lengths 8, 4, 4, 4 and 12; everything else draws an error. -/
theorem validateUUID_iff_shape (id : List Char) :
    ValidateUUID id = none ↔ uuidShape id := by
  constructor
  · intro h
    rw [ValidateUUID] at h
    by_cases hlen : (splitOnChar '-' id).length ≠ 5
    · rw [if_pos hlen] at h
      cases h
    · rw [if_neg hlen] at h
      obtain ⟨p1, p2, p3, p4, p5, hps⟩ :=
        list_length_eq_five (not_ne_iff.1 hlen)
      rw [hps] at h
      rw [validateUUIDParts_none_iff _ _ 0 [8, 4, 4, 4, 12] (by simp)] at h
      have k1 := h (p1, 8) (by simp)
      have k2 := h (p2, 4) (by simp)
      have k3 := h (p3, 4) (by simp)
      have k4 := h (p4, 4) (by simp)
      have k5 := h (p5, 12) (by simp)
      have hjoin := joinChar_splitOnChar '-' id
      rw [hps] at hjoin
      refine ⟨p1, p2, p3, p4, p5, hjoin.symm, k1.1, k2.1, k3.1, k4.1,
        k5.1, ?_⟩
      have ha1 := (of_decide_eq_true k1.2).2
      have ha2 := (of_decide_eq_true k2.2).2
      have ha3 := (of_decide_eq_true k3.2).2
      have ha4 := (of_decide_eq_true k4.2).2
      have ha5 := (of_decide_eq_true k5.2).2
      simp [List.all_append, ha1, ha2, ha3, ha4, ha5]
  · rintro ⟨g1, g2, g3, g4, g5, hid, h1, h2, h3, h4, h5, hall⟩
    subst hid
    exact validateUUID_of_shape h1 h2 h3 h4 h5 hall

/-- C7: for any sixteen random bytes and any sub-`2^48` millisecond clock
value, `UUIDv7` yields lowercase hex in 8-4-4-4-12 grouping, its first 48
bits (the first twelve hex digits) are the big-endian milliseconds, the
high nibble of byte 6 is `0x7` (`hexListVal g3 / 2^12 = 7`), the high two
bits of byte 8 are `10` (`hexListVal g4 / 2^14 = 2`), and `ValidateUUID`
accepts the generated string. -/
theorem uuidv7_spec (randBytes : Fin 16 → Nat) (ms : Nat)
    (hrand : ∀ i, randBytes i < 256) (hms : ms < 2 ^ 48) :
    ∃ g1 g2 g3 g4 g5 : List Char,
      UUIDv7 randBytes ms =
        g1 ++ '-' :: (g2 ++ '-' :: (g3 ++ '-' :: (g4 ++ '-' :: g5))) ∧
      g1.length = 8 ∧ g2.length = 4 ∧ g3.length = 4 ∧ g4.length = 4 ∧
      g5.length = 12 ∧
      (g1 ++ g2 ++ g3 ++ g4 ++ g5).all isLowerHexDigit = true ∧
      hexListVal (g1 ++ g2) = ms ∧
      hexListVal g3 / 2 ^ 12 = 7 ∧
      hexListVal g4 / 2 ^ 14 = 2 ∧
      ValidateUUID (UUIDv7 randBytes ms) = none := by
  refine ⟨padHexChars 8 (((ms / 2 ^ 40 % 256 * 256 + ms / 2 ^ 32 % 256) *
      256 + ms / 2 ^ 24 % 256) * 256 + ms / 2 ^ 16 % 256),
    padHexChars 4 (ms / 2 ^ 8 % 256 * 256 + ms % 256),
    padHexChars 4 ((randBytes 6 % 16 + 0x70) * 256 + randBytes 7),
    padHexChars 4 ((randBytes 8 % 64 + 0x80) * 256 + randBytes 9),
    padHexChars 12 (((((randBytes 10 * 256 + randBytes 11) * 256 +
      randBytes 12) * 256 + randBytes 13) * 256 + randBytes 14) * 256 +
      randBytes 15),
    rfl, padHexChars_length _ _, padHexChars_length _ _,
    padHexChars_length _ _, padHexChars_length _ _, padHexChars_length _ _,
    ?_, ?_, ?_, ?_, ?_⟩
  · simp [List.all_append, padHexChars_all_lower]
  · rw [hexListVal_append, padHexChars_length, hexListVal_padHexChars,
      hexListVal_padHexChars]
    have e8 : (16 : Nat) ^ 8 = 4294967296 := by norm_num
    have e4 : (16 : Nat) ^ 4 = 65536 := by norm_num
    rw [e8, e4]
    omega
  · rw [hexListVal_padHexChars]
    have e4 : (16 : Nat) ^ 4 = 65536 := by norm_num
    have e12 : (2 : Nat) ^ 12 = 4096 := by norm_num
    rw [e4, e12]
    have hr6 : randBytes 6 % 16 < 16 := Nat.mod_lt _ (by norm_num)
    have hr7 : randBytes 7 < 256 := hrand 7
    omega
  · rw [hexListVal_padHexChars]
    have e4 : (16 : Nat) ^ 4 = 65536 := by norm_num
    have e14 : (2 : Nat) ^ 14 = 16384 := by norm_num
    rw [e4, e14]
    have hr8 : randBytes 8 % 64 < 64 := Nat.mod_lt _ (by norm_num)
    have hr9 : randBytes 9 < 256 := hrand 9
    omega
  · exact validateUUID_of_shape (padHexChars_length _ _)
      (padHexChars_length _ _) (padHexChars_length _ _)
      (padHexChars_length _ _) (padHexChars_length _ _)
      (all_goHex_of_all_lower
        (by simp [List.all_append, padHexChars_all_lower]))

/-- The random bytes used by the UUID witness. -/
def uuidWitnessRand : Fin 16 → Nat := fun i => i.val * 17 % 256

/-- Witness for `uuidv7_spec` at concrete random bytes and clock value. -/
theorem uuidv7_spec_witness :
    (∀ i, uuidWitnessRand i < 256) ∧ (1700000000000 : Nat) < 2 ^ 48 ∧
    (∃ g1 g2 g3 g4 g5 : List Char,
      UUIDv7 uuidWitnessRand 1700000000000 =
        g1 ++ '-' :: (g2 ++ '-' :: (g3 ++ '-' :: (g4 ++ '-' :: g5))) ∧
      g1.length = 8 ∧ g2.length = 4 ∧ g3.length = 4 ∧ g4.length = 4 ∧
      g5.length = 12 ∧
      (g1 ++ g2 ++ g3 ++ g4 ++ g5).all isLowerHexDigit = true ∧
      hexListVal (g1 ++ g2) = 1700000000000 ∧
      hexListVal g3 / 2 ^ 12 = 7 ∧
      hexListVal g4 / 2 ^ 14 = 2 ∧
      ValidateUUID (UUIDv7 uuidWitnessRand 1700000000000) = none) :=
  ⟨by decide, by norm_num,
    uuidv7_spec uuidWitnessRand 1700000000000 (by decide) (by norm_num)⟩

/-- C10: `EnsureCoreTables`, `EnsureManagedIndexes`, `UnknownInsert`,
`CompactUnknownLatest`, `ReplayUnknownByType` and `IntrospectTables`
return an error on a nil database handle before executing any statement
(no database state exists that could change), and `UnknownInsert` and
`ReplayUnknownByType` return an error without touching the database when
the type name trims to the empty string. -/
theorem nilGuards_spec :
    (EnsureCoreTables none = .error "nil DBTX")
    ∧ (∀ t p c d, EnsureManagedIndexes none t p c d = .error "nil DBTX")
    ∧ (∀ tn rec, UnknownInsert none tn rec = .error "nil DBTX")
    ∧ (CompactUnknownLatest none = .error "nil DBTX")
    ∧ (∀ tn ap, ReplayUnknownByType none tn ap = .error "nil DBTX")
    ∧ (∀ ds, IntrospectTables none ds = .error "nil DBTX")
    ∧ (∀ db tn rec, goTrimSpace tn = "" →
        UnknownInsert (some db) tn rec = .error "empty type name")
    ∧ (∀ db tn ap, goTrimSpace tn = "" →
        ReplayUnknownByType (some db) tn ap = .error "empty type name") := by
  refine ⟨rfl, fun _ _ _ _ => rfl, fun _ _ => rfl, rfl, fun _ _ => rfl,
    fun _ => rfl, ?_, ?_⟩
  · intro db tn rec htn
    simp [UnknownInsert, htn]
  · intro db tn ap htn
    simp [ReplayUnknownByType, htn]

/-- Witness for `nilGuards_spec` at a whitespace-only type name. -/
theorem nilGuards_spec_witness :
    goTrimSpace " \t " = "" ∧
    UnknownInsert (some []) " \t "
      { id := "x", deleted := false, atNs := 0, data := "{}" } =
        .error "empty type name" := by
  refine ⟨by decide, ?_⟩
  exact nilGuards_spec.2.2.2.2.2.2.1 [] " \t "
    { id := "x", deleted := false, atNs := 0, data := "{}" } (by decide)

end ProprDB
